import Mathlib

/-!
Shallow embedding of the parquet-to-jsonl conversion pipeline
(src/main.rs and src/local_io.rs) and proofs about its claims.

Machine conventions used throughout:
* Byte buffers (`Vec<u8>`) are `List Nat`.
* `PathBuf` is the list of its components; `Path::extension` is modelled on
  the last component following Rust's rules (portion after the last dot of
  the file name, `none` when there is no dot or the only dot is leading).
* A Rust panic (a failing `unwrap`/`expect`/assert) is `Option.none`; code
  that can panic is embedded as an `Option`-returning function.
-/

namespace Parquet2Jsonl

/-- Paths are modelled by their list of components (directories then the
file name), matching how `PathBuf::join` appends a component. -/
abbrev Path := List String

/-- Byte buffers (`Vec<u8>`). -/
abbrev Bytes := List Nat

/-- Characters after the last `.` of a character list, or `none` when it
contains no `.` at all. -/
def extAfterLastDot : List Char → Option (List Char)
  | [] => none
  | '.' :: rest =>
    (match extAfterLastDot rest with
     | some e => some e
     | none => some rest)
  | _ :: rest => extAfterLastDot rest

/-- Rust `Path::extension` applied to a single file name: the portion after
the last `.`, or `none` when the name has no `.`, or when the only `.` is
the leading character (hidden files such as `.gitignore`, whose leading dot
is excluded from the search). -/
def rustExtension (name : String) : Option String :=
  match name.data with
  | [] => none
  | _ :: rest => (extAfterLastDot rest).map fun e => String.mk e

/-- Rust `PathBuf::extension`: the extension of the final path component
(`none` for an empty path, which has no file name). -/
def pathExtension (p : Path) : Option String :=
  (p.getLast?).bind rustExtension

/-! ### Compression codecs

The gzip and zstandard codecs come from the external `flate2` and `zstd`
crates, not from this repository.  Modelled from the spec: a "standard
deflate-based gzip encoding" / "standard zstandard encoding" at the default
level, each the exact inverse of the matching decompression rule.  They are
represented abstractly as injective magic-header framings: compression
prepends the format's magic bytes, decompression strips them and fails
(like `MultiGzDecoder` / `ZstdDecoder` on a stream that is not in the
format) when they are absent. -/

/-- Modelled from the spec: gzip compression (`flate2::write::GzEncoder`
at `Compression::default()`), abstracted as prepending the gzip magic
bytes 0x1f 0x8b. -/
def gzip_compress (data : Bytes) : Bytes := 31 :: 139 :: data

/-- Modelled from the spec: gzip decompression (`flate2::read::MultiGzDecoder`),
the exact inverse of `gzip_compress`; fails on input that does not start
with the gzip magic bytes. -/
def gzip_decompress (data : Bytes) : Option Bytes :=
  match data with
  | 31 :: 139 :: rest => some rest
  | _ => none

/-- Modelled from the spec: zstandard compression (`zstd::stream::write::Encoder`
at level 0, the default), abstracted as prepending the zstd magic bytes
0x28 0xb5 0x2f 0xfd. -/
def zstd_compress (data : Bytes) : Bytes := 40 :: 181 :: 47 :: 253 :: data

/-- Modelled from the spec: zstandard decompression (`zstd::stream::read::Decoder`),
the exact inverse of `zstd_compress`; fails on input that does not start
with the zstd magic bytes. -/
def zstd_decompress (data : Bytes) : Option Bytes :=
  match data with
  | 40 :: 181 :: 47 :: 253 :: rest => some rest
  | _ => none

/-- Embedding of `compress_data` (src/local_io.rs lines 189-206).  The Rust
code runs `filename.extension().unwrap().to_str()` and matches the result:
a missing extension makes the `unwrap` panic (`none` here); `Some("gz")`
selects gzip, `Some("zstd") | Some("zst")` selects zstandard, and every
other suffix falls through to the `_` arm returning the data unmodified. -/
def compress_data (data : Bytes) (filename : Path) : Option Bytes :=
  match pathExtension filename with
  | none => none
  | some e =>
    if e = "gz" then some (gzip_compress data)
    else if e = "zstd" ∨ e = "zst" then some (zstd_compress data)
    else some data

/-- ASCII lowercasing of one character, the part of Rust
`str::to_lowercase` relevant to extension strings. -/
def charToLower (c : Char) : Char :=
  if 'A' ≤ c ∧ c ≤ 'Z' then Char.ofNat (c.toNat + 32) else c

/-- Embedding of `to_lowercase` as applied to an extension string. -/
def strToLower (s : String) : String :=
  String.mk (s.data.map charToLower)

/-- Embedding of `read_local_file_into_memory` (src/local_io.rs lines
94-114), as a function of the raw on-disk bytes and the path.  The Rust
code runs `input_file.extension().unwrap().to_string_lossy().to_lowercase()`
(panicking when the extension is missing) and dispatches: lowercased `gz`
decompresses with gzip, lowercased `zstd`/`zst` with zstandard, anything
else is returned as-is. -/
def read_local_file_into_memory (contents : Bytes) (input_file : Path) : Option Bytes :=
  match pathExtension input_file with
  | none => none
  | some e =>
    let ext := strToLower e
    if ext = "gz" then gzip_decompress contents
    else if ext = "zstd" ∨ ext = "zst" then zstd_decompress contents
    else some contents

/-! ### Parquet decoding (`parquet_to_json`, src/local_io.rs lines 117-163) -/

/-- Arrow runtime value types as far as this pipeline distinguishes them:
`Utf8Array<i32>` is the only type the decoder's downcast accepts. -/
inductive ArrowTy where
  | utf8
  | largeUtf8
  | int64
  | float64
  | boolean
deriving DecidableEq, Repr

/-- One schema field: a (name, type) pair, as in `arrow2`'s `Field`. -/
structure SchemaField where
  name : String
  dtype : ArrowTy
deriving DecidableEq, Repr

/-- One column array inside a chunk: either a `Utf8Array<i32>` holding its
string values, or an array of some other runtime type (of which the decoder
only ever observes the failed downcast and, via `Chunk::len`, the length). -/
inductive Column where
  | utf8 (values : List String)
  | nonUtf8 (ty : ArrowTy) (len : Nat)
deriving DecidableEq, Repr

/-- Length of one column array. -/
def colLen : Column → Nat
  | .utf8 vs => vs.length
  | .nonUtf8 _ n => n

/-- Embedding of `chunk.len()` (`arrow2::chunk::Chunk::len`): the length of
the first array, 0 for an empty chunk. -/
def chunkLen (chunk : List Column) : Nat :=
  match chunk with
  | [] => 0
  | c :: _ => colLen c

/-- Embedding of `array.as_any().downcast_ref::<Utf8Array<i32>>()`:
succeeds exactly on `Utf8Array<i32>` arrays. -/
def downcastUtf8 : Column → Option (List String)
  | .utf8 vs => some vs
  | .nonUtf8 _ _ => none

/-- A parquet file as the decoder sees it: the schema inferred from the
footer metadata, and the row-group chunks yielded by the `FileReader`. -/
structure ParquetFile where
  schema : List SchemaField
  chunks : List (List Column)

/-- A decoded row (`serde_json::Map<String, Value>` holding only string
values), modelled as an insertion-ordered association list. -/
abbrev Record := List (String × String)

/-- Embedding of `serde_json::Map::insert`: replaces the value in place when
the key is already present, otherwise appends the new entry (insertion
order preserved). -/
def mapInsert (m : Record) (k v : String) : Record :=
  match m with
  | [] => [(k, v)]
  | (k', v') :: rest => if k' = k then (k', v) :: rest else (k', v') :: mapInsert rest k v

/-- Embedding of `Iterator::position`: the index of the first element
satisfying the predicate. -/
def position (p : α → Bool) : List α → Option Nat
  | [] => none
  | a :: as => if p a then some 0 else (position p as).map (· + 1)

/-- Option-valued `mapM`, embedding a Rust loop that pushes one result per
element and aborts (panics / propagates an error) on the first failure. -/
def mapMOpt (f : α → Option β) : List α → Option (List β)
  | [] => some []
  | a :: as =>
    match f a with
    | none => none
    | some b =>
      match mapMOpt f as with
      | none => none
      | some bs => some (b :: bs)

/-- Option-valued left fold, embedding a Rust loop that threads an
accumulator and aborts on the first failure. -/
def foldlMOpt (f : β → α → Option β) (init : β) : List α → Option β
  | [] => some init
  | a :: as =>
    match f init a with
    | none => none
    | some b => foldlMOpt f b as

/-- Embedding of the `column_indices` computation (src/local_io.rs lines
129-139): each requested column name is resolved, in the requested order,
to the position of the first schema field with that name; unresolved names
are silently dropped by `filter_map`.  Without a projection, all column
indices are used. -/
def columnIndices (schema : List SchemaField) (columns : Option (List String)) : List Nat :=
  match columns with
  | some cols => cols.filterMap fun colName => position (fun field => field.name == colName) schema
  | none => List.range schema.length

/-- Embedding of the inner loop body of `parquet_to_json` for one
`col_idx` (src/local_io.rs lines 149-156): look up the field name
(`schema.fields[col_idx]`, panicking out of range), index the chunk
(`chunk[col_idx]`, panicking out of range), downcast to `Utf8Array<i32>`
(`unwrap` panicking on any other array type), read the row's value
(`array.value(row_idx)`, panicking out of range) and insert it into the
row object. -/
def insertColumn (schema : List SchemaField) (chunk : List Column) (rowIdx : Nat)
    (obj : Record) (colIdx : Nat) : Option Record :=
  (schema.get? colIdx).bind fun field =>
    (chunk.get? colIdx).bind fun arr =>
      (downcastUtf8 arr).bind fun values =>
        (values.get? rowIdx).map fun v => mapInsert obj field.name v

/-- One row of `parquet_to_json`: fold `insertColumn` over the resolved
column indices starting from the empty object. -/
def decodeRow (schema : List SchemaField) (chunk : List Column) (idxs : List Nat)
    (rowIdx : Nat) : Option Record :=
  foldlMOpt (insertColumn schema chunk rowIdx) [] idxs

/-- One chunk of `parquet_to_json`: `for row_idx in 0..num_rows` pushing
one record per row. -/
def decodeChunk (schema : List SchemaField) (idxs : List Nat)
    (chunk : List Column) : Option (List Record) :=
  mapMOpt (decodeRow schema chunk idxs) (List.range (chunkLen chunk))

/-- Embedding of `parquet_to_json` (src/local_io.rs lines 117-163): resolve
the requested columns, decode every chunk in order, and concatenate the
per-chunk records into one row-ordered list. -/
def parquet_to_json (file : ParquetFile) (columns : Option (List String)) : Option (List Record) :=
  (mapMOpt (decodeChunk file.schema (columnIndices file.schema columns)) file.chunks).map List.flatten

/-- Name of the schema field at a column index (the name
`schema.fields[col_idx].name` reads; the out-of-range case never arises for
resolved indices). -/
def nameAt (schema : List SchemaField) (i : Nat) : String :=
  match schema.get? i with
  | some field => field.name
  | none => ""

/-- The field names of the resolved column indices, in resolution order:
the key order in which `parquet_to_json` populates each emitted record. -/
def resolvedNames (schema : List SchemaField) (cols : List String) : List String :=
  (columnIndices schema (some cols)).map (nameAt schema)

/-! ### Resharding (`process_parquet`, src/main.rs lines 84-90) -/

/-- Fuel-indexed helper for `chunkList`.  The fuel argument only makes the
recursion structural (so that the kernel can evaluate it); once the fuel
dominates the list length and the chunk size is positive it does not
affect the result (`chunkListFuel_congr`). -/
def chunkListFuel (n : Nat) : Nat → List α → List (List α)
  | _, [] => []
  | 0, _ :: _ => []
  | fuel + 1, a :: rest => ((a :: rest).take n) :: chunkListFuel n fuel ((a :: rest).drop n)

/-- Consecutive chunks of size `n` (last one possibly smaller), the
behaviour of Rust `slice::chunks(n)` for `n > 0`; `n = 0` is never reached
because `sliceChunks` models the panic first. -/
def chunkList (n : Nat) (l : List α) : List (List α) :=
  chunkListFuel n l.length l

/-- Embedding of `json_rows.chunks(max_docs)` (src/main.rs line 84): Rust
`slice::chunks` asserts that the chunk size is non-zero, so `max_docs = 0`
panics (`none`); otherwise it yields the consecutive chunks. -/
def sliceChunks (l : List α) (maxDocs : Nat) : Option (List (List α)) :=
  if maxDocs = 0 then none else some (chunkList maxDocs l)

/-! ### Shard-id allocation (src/main.rs lines 85, 117-123)

The shared `AtomicUsize` counter is incremented with
`fetch_add(1, Ordering::SeqCst)` exactly once per chunk.  Because every
increment is atomic and sequentially consistent, any concurrent run is
equivalent to some serialization of its per-chunk allocation events; a run
is therefore modelled as an arbitrary permutation (`List.Perm`) of the
multiset of chunk events, replayed against the counter. -/

/-- Replay a serialized sequence of allocation events against the counter:
each event receives the current counter value (`fetch_add` returns the
previous value) and the counter advances by one. -/
def allocRun : List ε → Nat → List (ε × Nat)
  | [], _ => []
  | e :: es, c => (e, c) :: allocRun es (c + 1)

/-- The shard ids handed out over a serialized run starting from the
initial counter value 0 (`AtomicUsize::new(0)`). -/
def assignedIds (sched : List ε) : List Nat :=
  (allocRun sched 0).map Prod.snd

/-- The allocation events of one file placed at position `i` of the input
list: one event `(i, j)` per chunk `j` of that file. -/
def fileEvents (i numChunks : Nat) : List (Nat × Nat) :=
  (List.range numChunks).map fun j => (i, j)

/-- Allocation events of the files from position `i` on. -/
def runEventsFrom (maxDocs : Nat) : Nat → List (List α) → List (Nat × Nat)
  | _, [] => []
  | i, f :: fs => fileEvents i (chunkList maxDocs f).length ++ runEventsFrom maxDocs (i + 1) fs

/-- All per-chunk allocation events of a run over the given decoded files. -/
def runEvents (files : List (List α)) (maxDocs : Nat) : List (Nat × Nat) :=
  runEventsFrom maxDocs 0 files

/-- Total number of shards of a run: the sum over files of their chunk
counts. -/
def totalShards (files : List (List α)) (maxDocs : Nat) : Nat :=
  (files.map fun f => (chunkList maxDocs f).length).sum

/-! ### Output file naming (`get_output_filename`, src/main.rs lines 97-99) -/

/-- Fuel-indexed helper for `decDigits`; the fuel only makes the recursion
structural and is invariant once it exceeds the number
(`decDigitsFuel_congr`). -/
def decDigitsFuel : Nat → Nat → List Char
  | 0, _ => []
  | fuel + 1, n =>
    if n < 10 then [Nat.digitChar n]
    else decDigitsFuel fuel (n / 10) ++ [Nat.digitChar (n % 10)]

/-- Decimal digits of a natural number, most significant first (the
digits `usize`'s `Display` implementation produces). -/
def decDigits (n : Nat) : List Char :=
  decDigitsFuel (n + 1) n

/-- Decimal rendering of a natural number. -/
def decimalString (n : Nat) : String :=
  String.mk (decDigits n)

/-- Embedding of the format specifier `{:08}`: left-pad the rendered number
with zeros to a minimum width of 8. -/
def pad08 (s : String) : String :=
  String.mk (List.replicate (8 - s.length) '0') ++ s

/-- Embedding of `get_output_filename` (src/main.rs lines 97-99):
`PathBuf::from(output_dir).join(format!(..))` with the format string
shaping the file name as the prefix, the id zero-padded to 8 digits, and
the literal suffix `.jsonl.gz`. -/
def get_output_filename (output_dir : Path) (pfx : String) (id : Nat) : Path :=
  output_dir ++ [pfx ++ pad08 (decimalString id) ++ ".jsonl.gz"]

/-! ## Helper lemmas -/

theorem chunkListFuel_nil {α : Type} (n f : Nat) : chunkListFuel n f ([] : List α) = [] := by
  cases f <;> rfl

theorem chunkListFuel_congr {α : Type} (n : Nat) (hn : 0 < n) :
    ∀ (f g : Nat) (l : List α), l.length ≤ f → l.length ≤ g →
      chunkListFuel n f l = chunkListFuel n g l := by
  intro f
  induction f with
  | zero =>
    intro g l hf _
    have hl : l = [] := List.eq_nil_of_length_eq_zero (Nat.le_zero.mp hf)
    subst hl
    rw [chunkListFuel_nil, chunkListFuel_nil]
  | succ f ih =>
    intro g l hf hg
    cases l with
    | nil => rw [chunkListFuel_nil, chunkListFuel_nil]
    | cons a rest =>
      cases g with
      | zero => simp at hg
      | succ g' =>
        simp only [chunkListFuel]
        congr 1
        apply ih
        · simp only [List.length_drop, List.length_cons] at hf ⊢
          omega
        · simp only [List.length_drop, List.length_cons] at hg ⊢
          omega

theorem chunkList_nil {α : Type} (n : Nat) : chunkList n ([] : List α) = [] := rfl

theorem chunkList_cons {α : Type} {n : Nat} (hn : 0 < n) (l : List α) (hl : l ≠ []) :
    chunkList n l = l.take n :: chunkList n (l.drop n) := by
  obtain ⟨a, rest, rfl⟩ := List.exists_cons_of_ne_nil hl
  show chunkListFuel n (a :: rest).length (a :: rest) = _
  simp only [List.length_cons, chunkListFuel]
  congr 1
  apply chunkListFuel_congr n hn
  · simp only [List.length_drop, List.length_cons]
    omega
  · exact Nat.le_refl _

theorem chunkList_spec {α : Type} (n : Nat) (hn : 0 < n) :
    ∀ (len : Nat) (l : List α), l.length ≤ len →
      (chunkList n l).flatten = l ∧
      (∀ c ∈ chunkList n l, c.length ≤ n ∧ c ≠ []) ∧
      (∀ i c, (chunkList n l).get? i = some c → i + 1 < (chunkList n l).length →
        c.length = n) := by
  intro len
  induction len with
  | zero =>
    intro l hlen
    have hl : l = [] := List.eq_nil_of_length_eq_zero (Nat.le_zero.mp hlen)
    subst hl
    refine ⟨rfl, by simp [chunkList_nil], by simp [chunkList_nil]⟩
  | succ len ih =>
    intro l hlen
    by_cases hl : l = []
    · subst hl
      refine ⟨rfl, by simp [chunkList_nil], by simp [chunkList_nil]⟩
    · have hpos : 0 < l.length := List.length_pos.mpr hl
      have hdl : (l.drop n).length ≤ len := by
        simp only [List.length_drop]
        omega
      obtain ⟨ihf, ihm, ihg⟩ := ih (l.drop n) hdl
      rw [chunkList_cons hn l hl]
      refine ⟨?_, ?_, ?_⟩
      · rw [List.flatten_cons, ihf, List.take_append_drop]
      · intro c hc
        rcases List.mem_cons.mp hc with rfl | hc'
        · refine ⟨?_, ?_⟩
          · rw [List.length_take]
            exact Nat.min_le_left _ _
          · rw [Ne, List.take_eq_nil_iff]
            rintro (h | h)
            · omega
            · exact hl h
        · exact ihm c hc'
      · intro i c hc hlt
        cases i with
        | zero =>
          rw [List.get?_cons_zero] at hc
          obtain rfl : l.take n = c := Option.some.inj hc
          simp only [List.length_cons] at hlt
          have hne : chunkList n (l.drop n) ≠ [] := by
            intro h0
            rw [h0] at hlt
            simp at hlt
          have hdrop : l.drop n ≠ [] := by
            intro h0
            apply hne
            rw [h0, chunkList_nil]
          have hlen2 : n < l.length := by
            have := List.length_pos.mpr hdrop
            simp only [List.length_drop] at this
            omega
          rw [List.length_take]
          exact Nat.min_eq_left (Nat.le_of_lt hlen2)
        | succ j =>
          rw [List.get?_cons_succ] at hc
          simp only [List.length_cons] at hlt
          exact ihg j c hc (by omega)

theorem decDigitsFuel_congr : ∀ (f g n : Nat), n < f → n < g → decDigitsFuel f n = decDigitsFuel g n := by
  intro f
  induction f with
  | zero => intro g n hf _; exact absurd hf (Nat.not_lt_zero n)
  | succ f ih =>
    intro g n hf hg
    cases g with
    | zero => exact absurd hg (Nat.not_lt_zero n)
    | succ g' =>
      simp only [decDigitsFuel]
      by_cases h : n < 10
      · simp [h]
      · simp only [if_neg h]
        have hdiv : n / 10 < n := Nat.div_lt_self (by omega) (by omega)
        rw [ih g' (n / 10) (by omega) (by omega)]

theorem decDigits_eq (n : Nat) :
    decDigits n = if n < 10 then [Nat.digitChar n]
      else decDigits (n / 10) ++ [Nat.digitChar (n % 10)] := by
  show decDigitsFuel (n + 1) n = _
  simp only [decDigitsFuel]
  by_cases h : n < 10
  · simp [h]
  · simp only [if_neg h]
    have hdiv : n / 10 < n := Nat.div_lt_self (by omega) (by omega)
    rw [decDigitsFuel_congr n (n / 10 + 1) (n / 10) (by omega) (by omega)]
    rfl

theorem decDigits_length_le : ∀ (k n : Nat), n < 10 ^ (k + 1) → (decDigits n).length ≤ k + 1 := by
  intro k
  induction k with
  | zero =>
    intro n h
    rw [decDigits_eq]
    have h10 : n < 10 := by norm_num at h; exact h
    simp [h10]
  | succ k ih =>
    intro n h
    rw [decDigits_eq]
    by_cases h10 : n < 10
    · simp [h10]
    · simp only [if_neg h10, List.length_append, List.length_cons, List.length_nil]
      have hdiv : n / 10 < 10 ^ (k + 1) := by
        rw [Nat.div_lt_iff_lt_mul (by omega : (0:Nat) < 10)]
        calc n < 10 ^ (k + 1 + 1) := h
        _ = 10 ^ (k + 1) * 10 := by ring
      have := ih (n / 10) hdiv
      omega

theorem pad08_length (s : String) (h : s.length ≤ 8) : (pad08 s).length = 8 := by
  show (String.mk (List.replicate (8 - s.length) '0') ++ s).length = 8
  rw [String.length_append]
  have hrep : (String.mk (List.replicate (8 - s.length) '0')).length = 8 - s.length := by
    show (List.replicate (8 - s.length) '0').length = 8 - s.length
    exact List.length_replicate _ _
  omega

theorem decimalString_length (n : Nat) : (decimalString n).length = (decDigits n).length := rfl

theorem allocRun_map_snd {ε : Type} : ∀ (es : List ε) (c : Nat),
    (allocRun es c).map Prod.snd = List.range' c es.length := by
  intro es
  induction es with
  | nil => intro c; rfl
  | cons e es ih =>
    intro c
    simp only [allocRun, List.map_cons, List.length_cons, List.range'_succ]
    rw [ih]

theorem assignedIds_eq_range {ε : Type} (sched : List ε) :
    assignedIds sched = List.range sched.length := by
  rw [assignedIds, allocRun_map_snd, List.range_eq_range']

theorem runEventsFrom_length {α : Type} (maxDocs : Nat) :
    ∀ (files : List (List α)) (i : Nat),
      (runEventsFrom maxDocs i files).length = totalShards files maxDocs := by
  intro files
  induction files with
  | nil => intro i; rfl
  | cons f fs ih =>
    intro i
    simp only [runEventsFrom, totalShards, fileEvents, List.length_append, List.length_map,
      List.length_range, List.map_cons, List.sum_cons]
    rw [ih (i + 1)]
    rfl

theorem mapMOpt_some {α β : Type} (g : α → Option β) (f : α → β) :
    ∀ (l : List α), (∀ a ∈ l, g a = some (f a)) → mapMOpt g l = some (l.map f) := by
  intro l
  induction l with
  | nil => intro _; rfl
  | cons a as ih =>
    intro h
    unfold mapMOpt
    rw [h a (List.mem_cons_self a as), ih (fun b hb => h b (List.mem_cons_of_mem a hb))]
    rfl

theorem mapMOpt_none {α β : Type} (g : α → Option β) {a : α} :
    ∀ (l : List α), a ∈ l → g a = none → mapMOpt g l = none := by
  intro l
  induction l with
  | nil => intro h _; simp at h
  | cons b bs ih =>
    intro hmem hga
    unfold mapMOpt
    rcases List.mem_cons.mp hmem with rfl | hmem'
    · rw [hga]
    · cases hgb : g b with
      | none => rfl
      | some v => rw [ih hmem' hga]

theorem mapMOpt_comp_map {α β γ : Type} (h : α → β) (g : β → Option γ) :
    ∀ (l : List α), mapMOpt g (l.map h) = mapMOpt (fun a => g (h a)) l := by
  intro l
  induction l with
  | nil => rfl
  | cons a as ih =>
    simp only [List.map_cons]
    unfold mapMOpt
    rw [ih]

theorem mapMOpt_range_eq {α β : Type} :
    ∀ (l : List α) (g : Nat → Option β) (G : α → β),
      (∀ i a, l.get? i = some a → g i = some (G a)) →
      mapMOpt g (List.range l.length) = some (l.map G) := by
  intro l
  induction l with
  | nil => intro g G _; rfl
  | cons a as ih =>
    intro g G h
    rw [List.length_cons, List.range_succ_eq_map]
    unfold mapMOpt
    rw [h 0 a rfl, mapMOpt_comp_map, ih (fun i => g (Nat.succ i)) G
      (fun i b hb => h (i + 1) b (by simpa using hb))]
    rfl

theorem mapMOpt_mem {α β : Type} (g : α → Option β) :
    ∀ (l : List α) (bs : List β), mapMOpt g l = some bs → ∀ b ∈ bs, ∃ a ∈ l, g a = some b := by
  intro l
  induction l with
  | nil =>
    intro bs h b hb
    unfold mapMOpt at h
    obtain rfl : [] = bs := Option.some.inj h
    simp at hb
  | cons a as ih =>
    intro bs h b hb
    unfold mapMOpt at h
    cases hga : g a with
    | none => rw [hga] at h; cases h
    | some v =>
      rw [hga] at h
      cases hmm : mapMOpt g as with
      | none => rw [hmm] at h; cases h
      | some vs =>
        rw [hmm] at h
        obtain rfl : v :: vs = bs := Option.some.inj h
        rcases List.mem_cons.mp hb with rfl | hb'
        · exact ⟨a, List.mem_cons_self a as, hga⟩
        · obtain ⟨x, hx, hgx⟩ := ih vs hmm b hb'
          exact ⟨x, List.mem_cons_of_mem a hx, hgx⟩

theorem foldlMOpt_none {α β : Type} (f : β → α → Option β) {a : α}
    (hfa : ∀ b, f b a = none) :
    ∀ (l : List α), a ∈ l → ∀ b0, foldlMOpt f b0 l = none := by
  intro l
  induction l with
  | nil => intro h; simp at h
  | cons x xs ih =>
    intro hmem b0
    unfold foldlMOpt
    rcases List.mem_cons.mp hmem with rfl | hmem'
    · rw [hfa b0]
    · cases hfx : f b0 x with
      | none => rfl
      | some b1 => exact ih hmem' b1

theorem mapInsert_keys {k v : String} :
    ∀ (m : Record), k ∉ m.map Prod.fst →
      (mapInsert m k v).map Prod.fst = m.map Prod.fst ++ [k] := by
  intro m
  induction m with
  | nil => intro _; rfl
  | cons p rest ih =>
    intro h
    obtain ⟨k', v'⟩ := p
    simp only [List.map_cons, List.mem_cons] at h
    push_neg at h
    unfold mapInsert
    rw [if_neg (fun he => h.1 he.symm)]
    simp only [List.map_cons]
    rw [ih h.2]
    rfl

theorem position_eq_some {α : Type} (p : α → Bool) :
    ∀ (l : List α) (i : Nat), position p l = some i →
      ∃ a, l.get? i = some a ∧ p a = true := by
  intro l
  induction l with
  | nil => intro i h; cases h
  | cons a as ih =>
    intro i h
    unfold position at h
    by_cases hpa : p a
    · rw [if_pos hpa] at h
      obtain rfl : (0 : Nat) = i := Option.some.inj h
      exact ⟨a, rfl, hpa⟩
    · rw [if_neg hpa] at h
      cases hpos : position p as with
      | none => rw [hpos] at h; cases h
      | some j =>
        rw [hpos] at h
        obtain rfl : j + 1 = i := Option.some.inj h
        obtain ⟨b, hb, hpb⟩ := ih j hpos
        exact ⟨b, by simpa using hb, hpb⟩

theorem resolvedNames_eq_filter (schema : List SchemaField) :
    ∀ (cols : List String),
      resolvedNames schema cols
        = cols.filter fun c => (position (fun f => f.name == c) schema).isSome := by
  intro cols
  induction cols with
  | nil => rfl
  | cons c tl ih =>
    simp only [resolvedNames, columnIndices, List.filterMap_cons, List.filter_cons] at ih ⊢
    cases hpos : position (fun f => f.name == c) schema with
    | none =>
      simp only [hpos, Option.isSome_none, Bool.false_eq_true, if_false]
      exact ih
    | some i =>
      obtain ⟨f, hf, hpf⟩ := position_eq_some _ schema i hpos
      have hname : nameAt schema i = c := by
        unfold nameAt
        rw [hf]
        exact eq_of_beq hpf
      simp only [hpos, Option.isSome_some, if_true, List.map_cons, hname]
      rw [ih]

theorem insert_keys_aux (schema : List SchemaField) (chunk : List Column) (r : Nat) :
    ∀ (idxs : List Nat) (m rec : Record),
      foldlMOpt (insertColumn schema chunk r) m idxs = some rec →
      (m.map Prod.fst ++ idxs.map (nameAt schema)).Nodup →
      rec.map Prod.fst = m.map Prod.fst ++ idxs.map (nameAt schema) := by
  intro idxs
  induction idxs with
  | nil =>
    intro m rec h _
    obtain rfl : m = rec := Option.some.inj h
    simp
  | cons i tl ih =>
    intro m rec h hnd
    unfold foldlMOpt at h
    cases hstep : insertColumn schema chunk r m i with
    | none => rw [hstep] at h; cases h
    | some m' =>
      rw [hstep] at h
      simp only [insertColumn, Option.bind_eq_some, Option.map_eq_some'] at hstep
      obtain ⟨field, hsf, arr, _harr, values, _hdc, v, _hvv, rfl⟩ := hstep
      have hname : nameAt schema i = field.name := by
        unfold nameAt
        rw [hsf]
      simp only [List.map_cons] at hnd
      have hnotin : field.name ∉ m.map Prod.fst := by
        intro hmemk
        exact (List.nodup_append.mp hnd).2.2 hmemk (by rw [hname]; exact List.mem_cons_self _ _)
      have hkeys' : (mapInsert m field.name v).map Prod.fst = m.map Prod.fst ++ [field.name] :=
        mapInsert_keys m hnotin
      have hnd' : ((mapInsert m field.name v).map Prod.fst ++ tl.map (nameAt schema)).Nodup := by
        rw [hkeys', List.append_assoc, List.singleton_append, ← hname]
        exact hnd
      rw [ih (mapInsert m field.name v) rec h hnd', hkeys', List.append_assoc,
        List.singleton_append, List.map_cons, hname]

/-! ## Claims -/

/-- C1: for every run (decoded files and max_docs) and any interleaving of
the per-chunk allocation events — one atomic `fetch_add(1, SeqCst)` on the
shared counter per chunk, across all parallel workers — the shard ids
handed out have no duplicates and are exactly `{0, ..., totalShards - 1}`. -/
theorem c1_shard_ids_unique {α : Type} (files : List (List α)) (maxDocs : Nat)
    (sched : List (Nat × Nat)) (_hmd : 0 < maxDocs)
    (hperm : sched.Perm (runEvents files maxDocs)) :
    (assignedIds sched).Nodup ∧
      ∀ k, k ∈ assignedIds sched ↔ k < totalShards files maxDocs := by
  have hlen : sched.length = totalShards files maxDocs := by
    rw [hperm.length_eq]
    exact runEventsFrom_length maxDocs files 0
  rw [assignedIds_eq_range, hlen]
  exact ⟨List.nodup_range _, fun k => List.mem_range⟩

/-- Witness for C1 at a concrete interleaved schedule over two files. -/
theorem c1_shard_ids_unique_witness :
    (assignedIds [((1:Nat),(0:Nat)), (0,0), (0,1)]).Nodup ∧
      ((2:Nat) ∈ assignedIds [((1:Nat),(0:Nat)), (0,0), (0,1)] ↔
        2 < totalShards [[10,20,30],[40,50]] 2) :=
  ⟨(c1_shard_ids_unique [[10,20,30],[40,50]] 2 [(1,0),(0,0),(0,1)]
      (by decide) (by decide)).1,
   (c1_shard_ids_unique [[10,20,30],[40,50]] 2 [(1,0),(0,0),(0,1)]
      (by decide) (by decide)).2 2⟩

/-- C4 counterexample: resharding with max_docs = 0 does not yield zero
shards without error — `slice::chunks(0)` asserts and panics, even on the
empty record sequence obtained from decoding an empty file. -/
theorem c4_zero_maxdocs_counterexample :
    sliceChunks ([] : List Record) 0 = none ∧
      sliceChunks ([] : List Record) 0 ≠ some [] := by
  exact ⟨rfl, by decide⟩

/-- C4 amended: resharding the empty sequence with a positive max_docs
yields zero shards and no error, and decoding a file with no row groups
yields the empty sequence with no error; resharding with max_docs = 0
panics (for every record sequence, the empty one included). -/
theorem c4_empty_input (n : Nat) (hn : 0 < n) (schema : List SchemaField)
    (cols : Option (List String)) (l : List Record) :
    sliceChunks ([] : List Record) n = some [] ∧
      parquet_to_json ⟨schema, []⟩ cols = some [] ∧
      sliceChunks l 0 = none := by
  refine ⟨?_, rfl, rfl⟩
  rw [sliceChunks, if_neg (by omega)]
  rfl

/-- Witness for C4 at max_docs 3 with a one-field schema. -/
theorem c4_empty_input_witness :
    sliceChunks ([] : List Record) 3 = some [] ∧
      parquet_to_json ⟨[⟨"text", ArrowTy.utf8⟩], []⟩ (some ["text", "id"]) = some [] :=
  ⟨(c4_empty_input 3 (by decide) [⟨"text", ArrowTy.utf8⟩] (some ["text", "id"])
      [[("a", "b")]]).1,
   (c4_empty_input 3 (by decide) [⟨"text", ArrowTy.utf8⟩] (some ["text", "id"])
      [[("a", "b")]]).2.1⟩

/-- C5: for every record sequence and positive max_docs the Resharder
partitions the sequence into consecutive non-overlapping chunks of at most
max_docs records each, every non-final chunk holding exactly max_docs, and
order is preserved within and across chunks (their concatenation is the
input sequence). -/
theorem c5_chunking {α : Type} (l : List α) (n : Nat) (hn : 0 < n) :
    ∃ cs, sliceChunks l n = some cs ∧
      cs.flatten = l ∧
      (∀ c ∈ cs, c.length ≤ n ∧ c ≠ []) ∧
      (∀ i c, cs.get? i = some c → i + 1 < cs.length → c.length = n) := by
  obtain ⟨h1, h2, h3⟩ := chunkList_spec n hn l.length l (Nat.le_refl _)
  exact ⟨chunkList n l, by rw [sliceChunks, if_neg (by omega)], h1, h2, h3⟩

/-- Witness for C5: 7 records with max_docs = 3 yield chunks of sizes
[3, 3, 1] whose concatenation is the input. -/
theorem c5_chunking_witness :
    sliceChunks (List.range 7) 3 = some [[0, 1, 2], [3, 4, 5], [6]] ∧
      [[0, 1, 2], [3, 4, 5], [6]].flatten = List.range 7 := by
  obtain ⟨cs, h1, h2, -, -⟩ := c5_chunking (List.range 7) 3 (by decide)
  have hd : sliceChunks (List.range 7) 3 = some [[0, 1, 2], [3, 4, 5], [6]] := by decide
  rw [h1] at hd
  obtain rfl : cs = [[0, 1, 2], [3, 4, 5], [6]] := Option.some.inj hd
  exact ⟨h1, h2⟩

/-- C9: the output artifact's path is deterministically the output
directory joined with the single component made of the prefix, the shard
id zero-padded to 8 digits, and the literal suffix `.jsonl.gz`; for every
id below 10^8 the padded id field is exactly 8 characters long. -/
theorem c9_output_filename (dir : Path) (pfx : String) (id : Nat)
    (h : id < 100000000) :
    get_output_filename dir pfx id
        = dir ++ [pfx ++ pad08 (decimalString id) ++ ".jsonl.gz"] ∧
      (pad08 (decimalString id)).length = 8 := by
  refine ⟨rfl, ?_⟩
  apply pad08_length
  rw [decimalString_length]
  have hpow : (10:Nat) ^ (7 + 1) = 100000000 := by norm_num
  exact decDigits_length_le 7 id (by rw [hpow]; exact h)

/-- Witness for C9 at shard id 42. -/
theorem c9_output_filename_witness :
    get_output_filename ["out"] "shard_" 42
        = ["out", "shard_" ++ pad08 (decimalString 42) ++ ".jsonl.gz"] ∧
      (pad08 (decimalString 42)).length = 8 :=
  c9_output_filename ["out"] "shard_" 42 (by decide)

/-- C2: for every byte buffer and destination path whose suffix is `gz`,
`zst` or `zstd`, compressing with the write-side codec (`compress_data`)
and decompressing the result with the read-side rule for the same path
yields the buffer back exactly. -/
theorem c2_codec_roundtrip (b : Bytes) (p : Path) (e : String)
    (h1 : pathExtension p = some e)
    (h2 : e = "gz" ∨ e = "zst" ∨ e = "zstd") :
    ∃ c, compress_data b p = some c ∧ read_local_file_into_memory c p = some b := by
  rcases h2 with rfl | rfl | rfl
  · refine ⟨gzip_compress b, ?_, ?_⟩
    · simp only [compress_data, h1]
      rfl
    · simp only [read_local_file_into_memory, h1]
      rfl
  · refine ⟨zstd_compress b, ?_, ?_⟩
    · simp only [compress_data, h1]
      rfl
    · simp only [read_local_file_into_memory, h1]
      rfl
  · refine ⟨zstd_compress b, ?_, ?_⟩
    · simp only [compress_data, h1]
      rfl
    · simp only [read_local_file_into_memory, h1]
      rfl

/-- Witness for C2 at a `.jsonl.gz` destination. -/
theorem c2_codec_roundtrip_witness :
    pathExtension ["x.jsonl.gz"] = some "gz" ∧
      ∃ c, compress_data [104, 105] ["x.jsonl.gz"] = some c ∧
        read_local_file_into_memory c ["x.jsonl.gz"] = some [104, 105] :=
  ⟨by decide, c2_codec_roundtrip [104, 105] ["x.jsonl.gz"] "gz" (by decide) (Or.inl rfl)⟩

/-- C3 counterexample: a destination path with no suffix at all does not
pass the bytes through unmodified — `compress_data` unwraps the missing
extension and panics. -/
theorem c3_no_suffix_counterexample :
    compress_data [1, 2, 3] ["outputfile"] = none ∧
      compress_data [1, 2, 3] ["outputfile"] ≠ some [1, 2, 3] :=
  ⟨rfl, by decide⟩

/-- C3 amended: the codec is selected solely from the path's suffix — `gz`
applies gzip at the default level, `zst`/`zstd` apply zstandard at the
default level, and any other suffix passes the bytes through unmodified —
but a path with no suffix at all panics instead of passing the bytes
through. -/
theorem c3_compress_by_suffix (b : Bytes) (p : Path) :
    (pathExtension p = none → compress_data b p = none) ∧
      (∀ e, pathExtension p = some e →
        compress_data b p =
          (if e = "gz" then some (gzip_compress b)
           else if e = "zstd" ∨ e = "zst" then some (zstd_compress b)
           else some b)) := by
  constructor
  · intro h
    simp only [compress_data, h]
  · intro e h
    simp only [compress_data, h]

/-- Witness for C3 (amended) at an uncompressed `.jsonl` destination. -/
theorem c3_compress_by_suffix_witness :
    compress_data [9, 9] ["d", "f.jsonl"] = some [9, 9] := by
  have h := (c3_compress_by_suffix [9, 9] ["d", "f.jsonl"]).2 "jsonl" (by decide)
  rw [h]
  decide

/-- C10: extension matching is case-sensitive on write but
case-insensitive on read: for every path whose suffix is a non-lowercase
variant of gz/zst/zstd, `compress_data` returns the bytes unchanged while
`read_local_file_into_memory` lowercases the suffix and applies the
corresponding decompressor to those raw bytes. -/
theorem c10_case_asymmetry (p : Path) (e : String) (data : Bytes)
    (h1 : pathExtension p = some e)
    (hlow : strToLower e = "gz" ∨ strToLower e = "zst" ∨ strToLower e = "zstd")
    (hne : e ≠ strToLower e) :
    compress_data data p = some data ∧
      read_local_file_into_memory data p =
        (if strToLower e = "gz" then gzip_decompress data else zstd_decompress data) := by
  have hg : e ≠ "gz" := by
    intro h; subst h; exact hne ((by decide : strToLower "gz" = "gz")).symm
  have hzs : e ≠ "zst" := by
    intro h; subst h; exact hne ((by decide : strToLower "zst" = "zst")).symm
  have hzsd : e ≠ "zstd" := by
    intro h; subst h; exact hne ((by decide : strToLower "zstd" = "zstd")).symm
  constructor
  · simp only [compress_data, h1]
    rw [if_neg hg, if_neg (fun h => h.elim hzsd hzs)]
  · simp only [read_local_file_into_memory, h1]
    rcases hlow with h | h | h
    · rw [h]; rfl
    · rw [h]; rfl
    · rw [h]; rfl

/-- Witness for C10 at `.jsonl.GZ`: the write side passes the bytes
through, and the read-side gzip decompressor then fails on them, so
write-then-read is not the identity there. -/
theorem c10_case_asymmetry_witness :
    compress_data [104, 105] ["shard.jsonl.GZ"] = some [104, 105] ∧
      read_local_file_into_memory [104, 105] ["shard.jsonl.GZ"] = none := by
  have h := c10_case_asymmetry ["shard.jsonl.GZ"] "GZ" [104, 105]
    (by decide) (Or.inl (by decide)) (by decide)
  refine ⟨h.1, ?_⟩
  rw [h.2]
  decide

/-- C6: a requested field name absent from the file's schema is silently
skipped with no error: projecting text and id over a schema with fields
text, id, other (of any type) yields records with exactly those two keys,
one record per source row in row order; and over a schema with only a text
field, the same projection yields records containing only text. -/
theorem c6_projection (rows : List (String × String)) (odt : ArrowTy)
    (other : Column) (texts : List String) :
    parquet_to_json
        ⟨[⟨"text", .utf8⟩, ⟨"id", .utf8⟩, ⟨"other", odt⟩],
         [[Column.utf8 (rows.map Prod.fst), Column.utf8 (rows.map Prod.snd), other]]⟩
        (some ["text", "id"])
      = some (rows.map fun r => [("text", r.1), ("id", r.2)]) ∧
    parquet_to_json ⟨[⟨"text", .utf8⟩], [[Column.utf8 texts]]⟩ (some ["text", "id"])
      = some (texts.map fun t => [("text", t)]) := by
  constructor
  · have hidx : columnIndices [⟨"text", .utf8⟩, ⟨"id", .utf8⟩, ⟨"other", odt⟩]
        (some ["text", "id"]) = [0, 1] := by
      simp [columnIndices, position, (by decide : ("text" == "id") = false)]
    have hchunk : decodeChunk [⟨"text", .utf8⟩, ⟨"id", .utf8⟩, ⟨"other", odt⟩] [0, 1]
        [Column.utf8 (rows.map Prod.fst), Column.utf8 (rows.map Prod.snd), other]
        = some (rows.map fun r => [("text", r.1), ("id", r.2)]) := by
      unfold decodeChunk
      have hlen : chunkLen [Column.utf8 (rows.map Prod.fst),
          Column.utf8 (rows.map Prod.snd), other] = rows.length := by
        simp [chunkLen, colLen]
      rw [hlen]
      apply mapMOpt_range_eq rows _ _
      intro i a hia
      have hia' : rows[i]? = some a := by rw [← List.get?_eq_getElem?]; exact hia
      simp [decodeRow, foldlMOpt, insertColumn, downcastUtf8, hia', mapInsert]
    simp only [parquet_to_json]
    rw [hidx]
    simp [mapMOpt, hchunk]
  · have hidx : columnIndices [⟨"text", .utf8⟩] (some ["text", "id"]) = [0] := by
      simp [columnIndices, position, (by decide : ("text" == "id") = false)]
    have hchunk : decodeChunk [⟨"text", .utf8⟩] [0] [Column.utf8 texts]
        = some (texts.map fun t => [("text", t)]) := by
      unfold decodeChunk
      have hlen : chunkLen [Column.utf8 texts] = texts.length := by
        simp [chunkLen, colLen]
      rw [hlen]
      apply mapMOpt_range_eq texts _ _
      intro i a hia
      have hia' : texts[i]? = some a := by rw [← List.get?_eq_getElem?]; exact hia
      simp [decodeRow, foldlMOpt, insertColumn, downcastUtf8, hia', mapInsert]
    simp only [parquet_to_json]
    rw [hidx]
    simp [mapMOpt, hchunk]

/-- C7 counterexample: a zero-row file whose projected column is a
non-string (int64) column decodes successfully to no records instead of
failing — the downcast only runs per row, so with no rows there is no
type-mismatch error. -/
theorem c7_zero_rows_counterexample :
    parquet_to_json ⟨[⟨"n", ArrowTy.int64⟩], [[Column.nonUtf8 ArrowTy.int64 0]]⟩
        (some ["n"]) = some [] ∧
      parquet_to_json ⟨[⟨"n", ArrowTy.int64⟩], [[Column.nonUtf8 ArrowTy.int64 0]]⟩
        (some ["n"]) ≠ none := by
  decide

/-- C7 amended: for every file with at least one row in the chunk holding
the projected column, projecting a field whose column array is not a
`Utf8Array<i32>` makes the decode fail (the downcast panics) rather than
coerce the value to a string. -/
theorem c7_nonstring_fails (file : ParquetFile) (cols : Option (List String))
    (chunk : List Column) (i : Nat) (col : Column)
    (hchunk : chunk ∈ file.chunks)
    (hidx : i ∈ columnIndices file.schema cols)
    (hcol : chunk.get? i = some col)
    (hdown : downcastUtf8 col = none)
    (hrows : 0 < chunkLen chunk) :
    parquet_to_json file cols = none := by
  have hstep : ∀ b, insertColumn file.schema chunk 0 b i = none := by
    intro b
    unfold insertColumn
    cases hsf : file.schema.get? i with
    | none => rfl
    | some f =>
      simp only [Option.some_bind]
      rw [hcol]
      simp only [Option.some_bind]
      rw [hdown]
      rfl
  have hrow : decodeRow file.schema chunk (columnIndices file.schema cols) 0 = none := by
    unfold decodeRow
    exact foldlMOpt_none _ hstep _ hidx []
  have hchunkNone : decodeChunk file.schema (columnIndices file.schema cols) chunk = none := by
    unfold decodeChunk
    exact mapMOpt_none _ _ (List.mem_range.mpr hrows) hrow
  unfold parquet_to_json
  rw [mapMOpt_none _ file.chunks hchunk hchunkNone]
  rfl

/-- Witness for C7 (amended) at a one-row int64 column. -/
theorem c7_nonstring_fails_witness :
    parquet_to_json ⟨[⟨"n", ArrowTy.int64⟩], [[Column.nonUtf8 ArrowTy.int64 1]]⟩
        (some ["n"]) = none :=
  c7_nonstring_fails ⟨[⟨"n", ArrowTy.int64⟩], [[Column.nonUtf8 ArrowTy.int64 1]]⟩
    (some ["n"]) [Column.nonUtf8 ArrowTy.int64 1] 0 (Column.nonUtf8 ArrowTy.int64 1)
    (by decide) (by decide) (by decide) (by decide) (by decide)

/-- C8 counterexample: with schema field order b, a and requested order
a, b, the emitted record's key insertion order is a, b — the requested
order — and not the schema's field order restricted to the resolved
indices, which is b, a. -/
theorem c8_schema_order_counterexample :
    parquet_to_json ⟨[⟨"b", ArrowTy.utf8⟩, ⟨"a", ArrowTy.utf8⟩],
        [[Column.utf8 ["vb"], Column.utf8 ["va"]]]⟩ (some ["a", "b"])
      = some [[("a", "va"), ("b", "vb")]] ∧
      [("a", "va"), ("b", "vb")].map Prod.fst
        ≠ ([⟨"b", ArrowTy.utf8⟩, ⟨"a", ArrowTy.utf8⟩] : List SchemaField).map
            SchemaField.name := by
  decide

/-- C8 amended: each emitted record's key insertion order follows the
order in which the fields were requested, restricted to the names that
resolve in the schema — not the schema's field order. -/
theorem c8_insertion_order (file : ParquetFile) (cols : List String)
    (recs : List Record) (rec : Record)
    (hdec : parquet_to_json file (some cols) = some recs)
    (hmem : rec ∈ recs)
    (hnd : (resolvedNames file.schema cols).Nodup) :
    rec.map Prod.fst
      = cols.filter fun c => (position (fun f => f.name == c) file.schema).isSome := by
  rw [← resolvedNames_eq_filter]
  unfold parquet_to_json at hdec
  obtain ⟨rss, hrss, hflat⟩ := Option.map_eq_some'.mp hdec
  obtain ⟨rs, hrsmem, hrecmem⟩ := List.mem_flatten.mp (hflat ▸ hmem)
  obtain ⟨chunk, hchunkmem, hchunkdec⟩ := mapMOpt_mem _ file.chunks rss hrss rs hrsmem
  unfold decodeChunk at hchunkdec
  obtain ⟨r, hrmem, hrdec⟩ := mapMOpt_mem _ _ rs hchunkdec rec hrecmem
  unfold decodeRow at hrdec
  have hkeys := insert_keys_aux file.schema chunk r
    (columnIndices file.schema (some cols)) [] rec hrdec
    (by simpa [resolvedNames] using hnd)
  simpa [resolvedNames] using hkeys

/-- Witness for C8 (amended): the record decoded from the b, a schema under
the requested order a, b has keys a, b. -/
theorem c8_insertion_order_witness :
    [("a", "va"), ("b", "vb")].map Prod.fst = ["a", "b"] := by
  have h := c8_insertion_order
    ⟨[⟨"b", ArrowTy.utf8⟩, ⟨"a", ArrowTy.utf8⟩],
      [[Column.utf8 ["vb"], Column.utf8 ["va"]]]⟩
    ["a", "b"] [[("a", "va"), ("b", "vb")]] [("a", "va"), ("b", "vb")]
    (by decide) (by decide) (by decide)
  rw [h]
  decide

end Parquet2Jsonl
